import Mathlib

/-
Shallow embedding of the regexer regular-expression engine
(parser -> code generator -> evaluator pipeline).

Each definition is translated from the corresponding Rust function:
  src/engine/parser.rs     : Ast, ParseError, parse_escape,
                             parse_plus_star_question, fold_or, parse
  src/engine/codegen.rs    : CodeGenError, Generator, inc_pc, gen_char,
                             gen_or, gen_plus, gen_star, gen_question,
                             gen_doller, gen_hat, gen_seq, gen_expr, gen_code
  src/engine/evaluator.rs  : EvalError, eval_depth, eval_width, eval
  src/engine.rs            : Instruction, do_matching

Machine integers (usize) are modelled as Nat together with the explicit
bound USIZE_MAX; the overflow-checked increment helper safe_add is
modelled from the spec because helper.rs is not part of the sources.

The Rust evaluator recurses without any bound (a generated program can
loop), so eval_depth takes an explicit fuel parameter; `none` means the
fuel ran out, `some r` means the Rust function would return `r`.
-/

namespace Regexer

/-- Word size bound of the target: usize is 64 bits (the unit test in
main.rs overflows at 2^64 - 1). -/
def USIZE_MAX : Nat := 2 ^ 64 - 1

/-- Modelled from the spec: the overflow-checked increment helper
(helper.rs, `safe_add`) is not under src/; the spec describes its
contract as "increment a counter, fail with a designated error if it
would overflow".  `none` models the error path (the Rust version calls
the supplied error closure), `some (a + b)` models success. -/
def safe_add (a b : Nat) : Option Nat :=
  if a + b ≤ USIZE_MAX then some (a + b) else none

/-- Abstract syntax tree of a pattern (parser.rs `Ast`).  The `Doller`
and `Hat` variants are matched by codegen.rs (`gen_expr`), although the
enum declared in parser.rs omits them; the type here is the union the
code generator requires.  The parser below never produces them. -/
inductive Ast where
  | Char : Char → Ast
  | Plus : Ast → Ast
  | Star : Ast → Ast
  | Question : Ast → Ast
  | Or : Ast → Ast → Ast
  | Seq : List Ast → Ast
  | Doller : Ast
  | Hat : Ast

/-- Parse errors (parser.rs `ParseError`). -/
inductive ParseError where
  | InvalidEscape : Nat → Char → ParseError
  | InvalidRightParen : Nat → ParseError
  | NoPrev : Nat → ParseError
  | NoRightParen : ParseError
  | Empty : ParseError
deriving DecidableEq

/-- Postfix-operator selector (parser.rs `Psq`). -/
inductive Psq where
  | Plus : Psq
  | Star : Psq
  | Question : Psq

/-- Escape handling (parser.rs `parse_escape`). -/
def parse_escape (pos : Nat) (c : Char) : Except ParseError Ast :=
  if c = '\\' ∨ c = '(' ∨ c = ')' ∨ c = '|' ∨ c = '+' ∨ c = '*' ∨ c = '?' then
    .ok (Ast.Char c)
  else
    .error (.InvalidEscape pos c)

/-- Postfix `+`/`*`/`?` handling (parser.rs `parse_plus_star_question`).
The Rust function pops the last element of the sequence accumulator and
pushes the wrapped node; it is rendered here state-passing. -/
def parse_plus_star_question (seq : List Ast) (ast_type : Psq) (pos : Nat) :
    Except ParseError (List Ast) :=
  match seq.getLast? with
  | some prev =>
    let ast := match ast_type with
      | Psq.Plus => Ast.Plus prev
      | Psq.Star => Ast.Star prev
      | Psq.Question => Ast.Question prev
    .ok (seq.dropLast ++ [ast])
  | none => .error (.NoPrev pos)

/-- Alternative folding (parser.rs `fold_or`): pop the last alternative,
then fold the remaining ones right-to-left around it. -/
def fold_or (seq_or : List Ast) : Option Ast :=
  if 1 < seq_or.length then
    match seq_or.getLast? with
    | some last => some (seq_or.dropLast.reverse.foldl (fun ast s => Ast.Or s ast) last)
    | none => none
  else
    seq_or.getLast?

/-- Scan state of the parser (the local `ParseState` enum in parser.rs). -/
inductive ParseState where
  | Char : ParseState
  | Escape : ParseState
deriving DecidableEq

/-- Mutable context of the parser's scan loop: the current sequence
accumulator, the current alternation accumulator, the context stack and
the scan state (the four locals of parser.rs `parse`). -/
structure ParseCtx where
  seq : List Ast
  seq_or : List Ast
  stack : List (List Ast × List Ast)
  state : ParseState

/-- Body of the `for (i, c) in expr.chars().enumerate()` loop of
parser.rs `parse`, rendered as structural recursion over the remaining
characters; `i` is the index of the next character. -/
def scanLoop : List Char → Nat → ParseCtx → Except ParseError ParseCtx
  | [], _, ctx => .ok ctx
  | c :: rest, i, ctx =>
    match ctx.state with
    | ParseState.Char =>
      if c = '+' then
        match parse_plus_star_question ctx.seq Psq.Plus i with
        | .ok seq2 => scanLoop rest (i + 1) { ctx with seq := seq2 }
        | .error e => .error e
      else if c = '*' then
        match parse_plus_star_question ctx.seq Psq.Star i with
        | .ok seq2 => scanLoop rest (i + 1) { ctx with seq := seq2 }
        | .error e => .error e
      else if c = '?' then
        match parse_plus_star_question ctx.seq Psq.Question i with
        | .ok seq2 => scanLoop rest (i + 1) { ctx with seq := seq2 }
        | .error e => .error e
      else if c = '(' then
        scanLoop rest (i + 1)
          { seq := [], seq_or := [],
            stack := ctx.stack ++ [(ctx.seq, ctx.seq_or)], state := ParseState.Char }
      else if c = ')' then
        match ctx.stack.getLast? with
        | some (prev, prev_or) =>
          let seq_or2 := if ctx.seq.isEmpty then ctx.seq_or else ctx.seq_or ++ [Ast.Seq ctx.seq]
          let prev2 := match fold_or seq_or2 with
            | some ast => prev ++ [ast]
            | none => prev
          scanLoop rest (i + 1)
            { seq := prev2, seq_or := prev_or,
              stack := ctx.stack.dropLast, state := ParseState.Char }
        | none => .error (.InvalidRightParen i)
      else if c = '|' then
        if ctx.seq.isEmpty then
          .error (.NoPrev i)
        else
          scanLoop rest (i + 1)
            { ctx with seq := [], seq_or := ctx.seq_or ++ [Ast.Seq ctx.seq] }
      else if c = '\\' then
        scanLoop rest (i + 1) { ctx with state := ParseState.Escape }
      else
        scanLoop rest (i + 1) { ctx with seq := ctx.seq ++ [Ast.Char c] }
    | ParseState.Escape =>
      match parse_escape i c with
      | .ok ast => scanLoop rest (i + 1) { ctx with seq := ctx.seq ++ [ast], state := ParseState.Char }
      | .error e => .error e

/-- Pattern parsing (parser.rs `parse`): run the scan loop from the
empty context, then perform the end-of-scan checks and folds. -/
def parse (expr : List Char) : Except ParseError Ast :=
  match scanLoop expr 0 ⟨[], [], [], ParseState.Char⟩ with
  | .error e => .error e
  | .ok ctx =>
    if ctx.stack.isEmpty then
      let seq_or2 := if ctx.seq.isEmpty then ctx.seq_or else ctx.seq_or ++ [Ast.Seq ctx.seq]
      match fold_or seq_or2 with
      | some ast => .ok ast
      | none => .error .Empty
    else
      .error .NoRightParen

/-- VM instruction set (engine.rs `Instruction`). -/
inductive Instruction where
  | Char : Char → Instruction
  | Match : Instruction
  | Jump : Nat → Instruction
  | Split : Nat → Nat → Instruction
  | MatchBegin : Instruction
  | MatchEnd : Instruction
deriving DecidableEq

/-- Code-generation errors (codegen.rs `CodeGenError`). -/
inductive CodeGenError where
  | PCOverFlow : CodeGenError
  | FailStar : CodeGenError
  | FailOr : CodeGenError
  | FailQuestion : CodeGenError
deriving DecidableEq

/-- Code-generator state (codegen.rs `Generator`). -/
structure Generator where
  pc : Nat
  insts : List Instruction

/-- Program-counter increment (codegen.rs `Generator::inc_pc`). -/
def inc_pc (g : Generator) : Except CodeGenError Generator :=
  match safe_add g.pc 1 with
  | some pc2 => .ok { g with pc := pc2 }
  | none => .error .PCOverFlow

/-- Literal-character emission (codegen.rs `Generator::gen_char`). -/
def gen_char (g : Generator) (c : Char) : Except CodeGenError Generator :=
  inc_pc { g with insts := g.insts ++ [Instruction.Char c] }

/-- End-of-line assertion emission (codegen.rs `Generator::gen_doller`).
Note the source pushes the instruction without incrementing `pc`. -/
def gen_doller (g : Generator) : Except CodeGenError Generator :=
  .ok { g with insts := g.insts ++ [Instruction.MatchEnd] }

/-- Start-of-line assertion emission (codegen.rs `Generator::gen_hat`).
Note the source pushes the instruction without incrementing `pc`. -/
def gen_hat (g : Generator) : Except CodeGenError Generator :=
  .ok { g with insts := g.insts ++ [Instruction.MatchBegin] }

mutual

/-- Dispatch over the AST (codegen.rs `Generator::gen_expr`).  The
bodies of the recursive emitters `gen_or`, `gen_plus`, `gen_star` and
`gen_question` are inlined into the corresponding arms (marked below)
so that every recursive call is on a strict subterm; each arm is a
verbatim rendering of the named method of codegen.rs. -/
def gen_expr (g : Generator) (ast : Ast) : Except CodeGenError Generator :=
  match ast with
  | .Char c => gen_char g c
  | .Or e1 e2 =>
    -- codegen.rs `Generator::gen_or`:
    -- split L1 L2; code(e1); jmp L3; code(e2), with L2/L3 patched.
    let split_addr := g.pc
    match inc_pc g with
    | .error e => .error e
    | .ok g1 =>
      let g2 : Generator := { g1 with insts := g1.insts ++ [Instruction.Split g1.pc 0] }
      match gen_expr g2 e1 with
      | .error e => .error e
      | .ok g3 =>
        let jmp_addr := g3.pc
        let g4 : Generator := { g3 with insts := g3.insts ++ [Instruction.Jump 0] }
        match inc_pc g4 with
        | .error e => .error e
        | .ok g5 =>
          match g5.insts.get? split_addr with
          | some (Instruction.Split l1 _) =>
            let g6 : Generator :=
              { g5 with insts := g5.insts.set split_addr (Instruction.Split l1 g5.pc) }
            match gen_expr g6 e2 with
            | .error e => .error e
            | .ok g7 =>
              match g7.insts.get? jmp_addr with
              | some (Instruction.Jump _) =>
                .ok { g7 with insts := g7.insts.set jmp_addr (Instruction.Jump g7.pc) }
              | _ => .error .FailOr
          | _ => .error .FailOr
  | .Plus e =>
    -- codegen.rs `Generator::gen_plus`: L1: code(e); split L1 L2.
    let addr := g.pc
    match gen_expr g e with
    | .error e2 => .error e2
    | .ok g1 =>
      match inc_pc g1 with
      | .error e2 => .error e2
      | .ok g2 => .ok { g2 with insts := g2.insts ++ [Instruction.Split addr g2.pc] }
  | .Star e =>
    -- codegen.rs `Generator::gen_star`:
    -- L1: split L2 L3; L2: code(e); jmp L1, with L3 patched.
    let addr := g.pc
    match inc_pc g with
    | .error e2 => .error e2
    | .ok g1 =>
      let g2 : Generator := { g1 with insts := g1.insts ++ [Instruction.Split g1.pc 0] }
      match gen_expr g2 e with
      | .error e2 => .error e2
      | .ok g3 =>
        let g4 : Generator := { g3 with insts := g3.insts ++ [Instruction.Jump addr] }
        match inc_pc g4 with
        | .error e2 => .error e2
        | .ok g5 =>
          match g5.insts.get? addr with
          | some (Instruction.Split l1 _) =>
            .ok { g5 with insts := g5.insts.set addr (Instruction.Split l1 g5.pc) }
          | _ => .error .FailStar
  | .Question e =>
    -- codegen.rs `Generator::gen_question`:
    -- split L1 L2; L1: code(e), with L2 patched.
    let split_addr := g.pc
    match inc_pc g with
    | .error e2 => .error e2
    | .ok g1 =>
      let addr := g1.pc
      let g2 : Generator := { g1 with insts := g1.insts ++ [Instruction.Split addr 0] }
      match gen_expr g2 e with
      | .error e2 => .error e2
      | .ok g3 =>
        match g3.insts.get? split_addr with
        | some (Instruction.Split l1 _) =>
          .ok { g3 with insts := g3.insts.set split_addr (Instruction.Split l1 g3.pc) }
        | _ => .error .FailQuestion
  | .Seq v => gen_seq g v
  | .Doller => gen_doller g
  | .Hat => gen_hat g

/-- Sequence emission (codegen.rs `Generator::gen_seq`): generate each
element in order. -/
def gen_seq (g : Generator) (exprs : List Ast) : Except CodeGenError Generator :=
  match exprs with
  | [] => .ok g
  | e :: rest =>
    match gen_expr g e with
    | .error e2 => .error e2
    | .ok g1 => gen_seq g1 rest

end

/-- Whole-program generation entry (codegen.rs `Generator::gen_code`):
generate the AST, then append the trailing `Match`. -/
def Generator.gen_code (g : Generator) (ast : Ast) : Except CodeGenError Generator :=
  match gen_expr g ast with
  | .error e => .error e
  | .ok g1 =>
    match inc_pc g1 with
    | .error e => .error e
    | .ok g2 => .ok { g2 with insts := g2.insts ++ [Instruction.Match] }

/-- Public code-generation entry (codegen.rs `gen_code`): run from the
default generator state and return the instruction sequence. -/
def gen_code (ast : Ast) : Except CodeGenError (List Instruction) :=
  match Generator.gen_code ⟨0, []⟩ ast with
  | .error e => .error e
  | .ok g => .ok g.insts

/-- Evaluation errors (evaluator.rs `EvalError`); the spelling of
`POSOvreFlow` is the source's. -/
inductive EvalError where
  | PCOverFlow : EvalError
  | SPOverFlow : EvalError
  | POSOvreFlow : EvalError
  | InvalidPC : EvalError
deriving DecidableEq

/-- Body of the `loop` in evaluator.rs `eval_depth`, with the locals
`pos` and `init_position_state` made explicit parameters and a fuel
counter added (the Rust loop is unbounded); one unit of fuel is spent
per loop iteration, `none` means the fuel ran out.  The `Split` arm
recursively calls the whole of `eval_depth`, so its branches restart
with `pos = 0` and `init_position_state = false` exactly as the Rust
recursion re-initialises those locals. -/
def eval_loop : Nat → List Instruction → List Char → Nat → Nat → Nat → Bool →
    Option (Except EvalError Bool)
  | 0, _, _, _, _, _, _ => none
  | fuel + 1, inst, line, pc, sp, pos, init_position_state =>
    match inst.get? pc with
    | none => some (.error .InvalidPC)
    | some next =>
      match next with
      | .Char c =>
        match line.get? sp with
        | some sp_c =>
          let init2 := if c = '\n' then true else init_position_state
          if c = '.' ∨ c = sp_c then
            match safe_add pc 1 with
            | none => some (.error .PCOverFlow)
            | some pc2 =>
              match safe_add sp 1 with
              | none => some (.error .SPOverFlow)
              | some sp2 =>
                if init2 then
                  eval_loop fuel inst line pc2 sp2 0 false
                else
                  match safe_add pos 1 with
                  | none => some (.error .POSOvreFlow)
                  | some pos2 => eval_loop fuel inst line pc2 sp2 pos2 init2
          else
            some (.ok false)
        | none => some (.ok false)
      | .Match => some (.ok true)
      | .Jump addr => eval_loop fuel inst line addr sp pos init_position_state
      | .Split addr1 addr2 =>
        match eval_loop fuel inst line addr1 sp 0 false with
        | none => none
        | some (.error e) => some (.error e)
        | some (.ok true) => some (.ok true)
        | some (.ok false) =>
          match eval_loop fuel inst line addr2 sp 0 false with
          | none => none
          | some (.error e) => some (.error e)
          | some (.ok b) => some (.ok b)
      | .MatchBegin =>
        if pos = 0 then
          match safe_add pc 1 with
          | none => some (.error .PCOverFlow)
          | some pc2 => eval_loop fuel inst line pc2 sp pos init_position_state
        else
          some (.ok false)
      | .MatchEnd =>
        match line.get? sp with
        | some c =>
          if c = '\n' then
            match safe_add pc 1 with
            | none => some (.error .PCOverFlow)
            | some pc2 => eval_loop fuel inst line pc2 sp pos init_position_state
          else
            some (.ok false)
        | none =>
          if pos = line.length then
            match safe_add pc 1 with
            | none => some (.error .PCOverFlow)
            | some pc2 => eval_loop fuel inst line pc2 sp pos init_position_state
          else
            some (.ok false)

/-- Depth-first evaluation (evaluator.rs `eval_depth`): the locals
`pos` and `init_position_state` start at `0` and `false`. -/
def eval_depth (fuel : Nat) (inst : List Instruction) (line : List Char)
    (pc sp : Nat) : Option (Except EvalError Bool) :=
  eval_loop fuel inst line pc sp 0 false

/-- Breadth-first evaluation (evaluator.rs `eval_width`): returns
`Ok(false)` without inspecting any argument. -/
def eval_width (_inst : List Instruction) (_line : List Char) (_pc _sp : Nat) :
    Except EvalError Bool :=
  .ok false

/-- Strategy dispatch (evaluator.rs `eval`). -/
def eval (fuel : Nat) (inst : List Instruction) (line : List Char) (is_depth : Bool) :
    Option (Except EvalError Bool) :=
  if is_depth then eval_depth fuel inst line 0 0
  else some (eval_width inst line 0 0)

/-- Spec-following variant of the evaluator loop, used only to compare
the source behaviour with the specification sentence "each branch gets
its own independent copy seeded from the state at the split point".  It
is a verbatim copy of `eval_loop` except in the `Split` arm, where each
branch is seeded with the `pos` counter (and pending-reset flag) held
when the split was reached, instead of the fresh `0`/`false` that the
source's recursive `eval_depth` call re-initialises. -/
def eval_loop_specSeeded : Nat → List Instruction → List Char → Nat → Nat → Nat → Bool →
    Option (Except EvalError Bool)
  | 0, _, _, _, _, _, _ => none
  | fuel + 1, inst, line, pc, sp, pos, init_position_state =>
    match inst.get? pc with
    | none => some (.error .InvalidPC)
    | some next =>
      match next with
      | .Char c =>
        match line.get? sp with
        | some sp_c =>
          let init2 := if c = '\n' then true else init_position_state
          if c = '.' ∨ c = sp_c then
            match safe_add pc 1 with
            | none => some (.error .PCOverFlow)
            | some pc2 =>
              match safe_add sp 1 with
              | none => some (.error .SPOverFlow)
              | some sp2 =>
                if init2 then
                  eval_loop_specSeeded fuel inst line pc2 sp2 0 false
                else
                  match safe_add pos 1 with
                  | none => some (.error .POSOvreFlow)
                  | some pos2 => eval_loop_specSeeded fuel inst line pc2 sp2 pos2 init2
          else
            some (.ok false)
        | none => some (.ok false)
      | .Match => some (.ok true)
      | .Jump addr => eval_loop_specSeeded fuel inst line addr sp pos init_position_state
      | .Split addr1 addr2 =>
        match eval_loop_specSeeded fuel inst line addr1 sp pos init_position_state with
        | none => none
        | some (.error e) => some (.error e)
        | some (.ok true) => some (.ok true)
        | some (.ok false) =>
          match eval_loop_specSeeded fuel inst line addr2 sp pos init_position_state with
          | none => none
          | some (.error e) => some (.error e)
          | some (.ok b) => some (.ok b)
      | .MatchBegin =>
        if pos = 0 then
          match safe_add pc 1 with
          | none => some (.error .PCOverFlow)
          | some pc2 => eval_loop_specSeeded fuel inst line pc2 sp pos init_position_state
        else
          some (.ok false)
      | .MatchEnd =>
        match line.get? sp with
        | some c =>
          if c = '\n' then
            match safe_add pc 1 with
            | none => some (.error .PCOverFlow)
            | some pc2 => eval_loop_specSeeded fuel inst line pc2 sp pos init_position_state
          else
            some (.ok false)
        | none =>
          if pos = line.length then
            match safe_add pc 1 with
            | none => some (.error .PCOverFlow)
            | some pc2 => eval_loop_specSeeded fuel inst line pc2 sp pos init_position_state
          else
            some (.ok false)

/-- Branch targets carried by an instruction: the `Jump` target and the
two `Split` targets; other instructions carry none. -/
def instTargets : Instruction → List Nat
  | .Jump addr => [addr]
  | .Split addr1 addr2 => [addr1, addr2]
  | _ => []

/-- Invariant of the generator state maintained by `gen_expr`: the
program counter never exceeds the number of emitted instructions, every
branch target emitted so far is bounded by the program counter, and the
terminal `Match` instruction has not been emitted. -/
def GoodGen (g : Generator) : Prop :=
  g.pc ≤ g.insts.length ∧
  (∀ ins ∈ g.insts, ∀ t ∈ instTargets ins, t ≤ g.pc) ∧
  Instruction.Match ∉ g.insts

/-- Error type of `do_matching` (engine.rs returns a boxed `DynError`
that carries one of the three stage errors). -/
inductive DynError where
  | parseE : ParseError → DynError
  | codegenE : CodeGenError → DynError
  | evalE : EvalError → DynError
deriving DecidableEq

/-- Whole-pipeline matching (engine.rs `do_matching`): parse, generate,
evaluate; each stage's error is propagated. -/
def do_matching (fuel : Nat) (expr line : List Char) (is_depth : Bool) :
    Option (Except DynError Bool) :=
  match parse expr with
  | .error e => some (.error (.parseE e))
  | .ok ast =>
    match gen_code ast with
    | .error e => some (.error (.codegenE e))
    | .ok code =>
      match eval fuel code line is_depth with
      | none => none
      | some (.error e) => some (.error (.evalE e))
      | some (.ok b) => some (.ok b)

/-! Theorems.  Each claim's theorem carries the claim id in its doc
comment; helper lemmas are shared. -/

/-- C6: for every instruction sequence and input, evaluation with the
breadth-first strategy (`is_depth = false`) returns `Ok(false)`; the
result is independent of the program, the input and the fuel, so a
caller selecting this strategy never observes a match. -/
theorem c6_width_always_false (fuel : Nat) (inst : List Instruction) (line : List Char) :
    eval fuel inst line false = some (.ok false) := rfl

/-- C2 (code-bug evidence): the parser maps an unescaped `^` (and `$`)
to literal `Char` nodes, not anchor nodes, so the generated program
consumes input characters at those positions, and the repo's own test
cases `do_matching("^foo", "foo", true)` and `do_matching("foo$",
"foo", true)` (asserted `true` in main.rs) evaluate to `Ok(false)`. -/
theorem c2_anchors_parsed_as_literals :
    parse ('^' :: 'f' :: 'o' :: 'o' :: []) =
      .ok (.Seq [.Char '^', .Char 'f', .Char 'o', .Char 'o']) ∧
    parse ('f' :: 'o' :: 'o' :: '$' :: []) =
      .ok (.Seq [.Char 'f', .Char 'o', .Char 'o', .Char '$']) ∧
    do_matching 10 ('^' :: 'f' :: 'o' :: 'o' :: []) ('f' :: 'o' :: 'o' :: []) true =
      some (.ok false) ∧
    do_matching 10 ('f' :: 'o' :: 'o' :: '$' :: []) ('f' :: 'o' :: 'o' :: []) true =
      some (.ok false) :=
  ⟨rfl, rfl, rfl, rfl⟩

/-- C3 (counterexample): `do_matching "abc" "abcdef" true` returns
`Ok(true)` although only the proper prefix `abc` of the input matches
the pattern; the claim that the entire input must match is false. -/
theorem c3_counterexample :
    do_matching 10 ('a' :: 'b' :: 'c' :: []) ('a' :: 'b' :: 'c' :: 'd' :: 'e' :: 'f' :: []) true =
      some (.ok true) := rfl

/-- C3 (amended): depth-first evaluation returns `Ok(true)` as soon as
the program counter reaches the `Match` instruction, regardless of the
scan offset, the position counter or the remaining input, so matching a
proper prefix of the input already yields `Ok(true)`; the engine itself
starts only at offset 0 and never searches at later offsets. -/
theorem c3_match_ignores_remaining_input (fuel : Nat) (inst : List Instruction)
    (line : List Char) (pc sp pos : Nat) (flag : Bool)
    (h : inst.get? pc = some Instruction.Match) :
    eval_loop (fuel + 1) inst line pc sp pos flag = some (.ok true) := by
  simp only [eval_loop, h]

/-- Witness for C3's amended theorem: a concrete state sitting on the
`Match` instruction with one input character left still succeeds. -/
theorem c3_witness :
    eval_loop 1 [Instruction.Char 'a', Instruction.Match] ('a' :: 'b' :: []) 1 1 1 false =
      some (.ok true) :=
  c3_match_ignores_remaining_input 0 [Instruction.Char 'a', Instruction.Match]
    ('a' :: 'b' :: []) 1 1 1 false rfl

/-- C1 (counterexample): on the program
`[Char a, Split 2 2, MatchBegin, Match]` with input `"ab"`, the split
is reached with `pos = 1`, yet the branch seeded by the source's
recursive `eval_depth` call restarts at `pos = 0`, making `MatchBegin`
succeed and the whole evaluation return `Ok(true)`; seeding the branch
with the split-point state as the claim states would return
`Ok(false)`. -/
theorem c1_counterexample :
    eval_depth 10 [.Char 'a', .Split 2 2, .MatchBegin, .Match] ('a' :: 'b' :: []) 0 0 =
      some (.ok true) ∧
    eval_loop_specSeeded 10 [.Char 'a', .Split 2 2, .MatchBegin, .Match] ('a' :: 'b' :: [])
      0 0 0 false = some (.ok false) :=
  ⟨rfl, rfl⟩

/-- C1 (amended): when a `Split` is reached, each branch is attempted
with its own program counter (the split target) and the scan offset
`sp` held at the split point, but the logical position counter and the
pending-reset flag restart at `0`/`false` in each branch, because they
are locals of each `eval_depth` invocation — not the values held when
the split was reached. -/
theorem c1_split_branch_state (fuel : Nat) (inst : List Instruction) (line : List Char)
    (pc sp pos : Nat) (flag : Bool) (addr1 addr2 : Nat)
    (h : inst.get? pc = some (.Split addr1 addr2)) :
    eval_loop (fuel + 1) inst line pc sp pos flag =
      match eval_loop fuel inst line addr1 sp 0 false with
      | none => none
      | some (.error e) => some (.error e)
      | some (.ok true) => some (.ok true)
      | some (.ok false) =>
        match eval_loop fuel inst line addr2 sp 0 false with
        | none => none
        | some (.error e) => some (.error e)
        | some (.ok b) => some (.ok b) := by
  simp only [eval_loop, h]

/-- Witness for C1's amended theorem at a concrete split state. -/
theorem c1_witness :
    eval_loop 3 [.Char 'a', .Split 2 2, .MatchBegin, .Match] ('a' :: 'b' :: []) 1 1 1 false =
      match eval_loop 2 [.Char 'a', .Split 2 2, .MatchBegin, .Match] ('a' :: 'b' :: []) 2 1 0 false with
      | none => none
      | some (.error e) => some (.error e)
      | some (.ok true) => some (.ok true)
      | some (.ok false) =>
        match eval_loop 2 [.Char 'a', .Split 2 2, .MatchBegin, .Match] ('a' :: 'b' :: []) 2 1 0 false with
        | none => none
        | some (.error e) => some (.error e)
        | some (.ok b) => some (.ok b) :=
  c1_split_branch_state 2 [.Char 'a', .Split 2 2, .MatchBegin, .Match] ('a' :: 'b' :: [])
    1 1 1 false 2 2 rfl

/-- C8: a pattern whose first character is `+`, `*` or `?` fails to
parse with the no-preceding-expression error at position 0, as does the
pattern `|b`, and `do_matching` on such patterns returns that parse
error (wrapped), for every input and strategy — code generation and
evaluation are never reached. -/
theorem c8_leading_postfix_rejected (c : Char) (rest line : List Char) (fuel : Nat)
    (dep : Bool) (h : c = '+' ∨ c = '*' ∨ c = '?') :
    parse (c :: rest) = .error (.NoPrev 0) ∧
    do_matching fuel (c :: rest) line dep = some (.error (.parseE (.NoPrev 0))) ∧
    parse ('|' :: 'b' :: []) = .error (.NoPrev 0) ∧
    do_matching fuel ('|' :: 'b' :: []) line dep = some (.error (.parseE (.NoPrev 0))) := by
  have hp : parse (c :: rest) = .error (.NoPrev 0) := by
    rcases h with h | h | h <;> subst h <;>
      simp [parse, scanLoop, parse_plus_star_question]
  refine ⟨hp, ?_, rfl, ?_⟩
  · simp only [do_matching, hp]
  · simp only [do_matching]
    rfl

/-- Witness for C8 at the repo's own test input `("+b", "bbb")`. -/
theorem c8_witness :
    parse ('+' :: 'b' :: []) = .error (.NoPrev 0) ∧
    do_matching 5 ('+' :: 'b' :: []) ('b' :: 'b' :: 'b' :: []) true =
      some (.error (.parseE (.NoPrev 0))) := by
  have h := c8_leading_postfix_rejected '+' ('b' :: []) ('b' :: 'b' :: 'b' :: []) 5 true
    (Or.inl rfl)
  exact ⟨h.1, h.2.1⟩

/-- C9: in depth-first evaluation of a `Char c` instruction, a scan
offset at or past the end of input fails the branch; otherwise the
wildcard `.` accepts unconditionally and any other `c` accepts exactly
when it equals the input character at the scan offset; on acceptance
the position counter becomes `0` when the pattern character `c` is a
newline (even when the consumed input character is not — and a `.`
consuming an input newline still increments), else `pos + 1`.  The
bounds hypotheses say the overflow-checked increments succeed, which in
Rust always holds since `pc`/`sp` are below slice lengths and
`pos ≤ sp`. -/
theorem c9_char_arm (fuel : Nat) (inst : List Instruction) (line : List Char)
    (pc sp pos : Nat) (c : Char) (h : inst.get? pc = some (.Char c)) :
    (line.length ≤ sp → eval_loop (fuel + 1) inst line pc sp pos false = some (.ok false)) ∧
    (∀ sp_c, line.get? sp = some sp_c → pc + 1 ≤ USIZE_MAX → sp + 1 ≤ USIZE_MAX →
      pos + 1 ≤ USIZE_MAX →
      eval_loop (fuel + 1) inst line pc sp pos false =
        if c = '.' ∨ c = sp_c then
          eval_loop fuel inst line (pc + 1) (sp + 1) (if c = '\n' then 0 else pos + 1) false
        else
          some (.ok false)) := by
  constructor
  · intro hend
    have hnone : line.get? sp = none := List.get?_eq_none.mpr hend
    simp only [eval_loop, h, hnone]
  · intro sp_c hsp hpc hsp1 hpos
    have hpc' : safe_add pc 1 = some (pc + 1) := by simp [safe_add, hpc]
    have hsp' : safe_add sp 1 = some (sp + 1) := by simp [safe_add, hsp1]
    have hpos' : safe_add pos 1 = some (pos + 1) := by simp [safe_add, hpos]
    simp only [eval_loop, h, hsp]
    by_cases hacc : c = '.' ∨ c = sp_c
    · rw [if_pos hacc, if_pos hacc, hpc', hsp']
      by_cases hn : c = '\n'
      · simp only [hn, if_pos rfl]
        rfl
      · simp only [if_neg hn, hpos']
        rfl
    · rw [if_neg hacc, if_neg hacc]

/-- Witness for C9 at concrete states: past-the-end failure, and an
accepting step on a matching character. -/
theorem c9_witness :
    (eval_loop 2 [Instruction.Char 'a', Instruction.Match] ('a' :: []) 0 1 0 false =
      some (.ok false)) ∧
    (eval_loop 2 [Instruction.Char 'a', Instruction.Match] ('a' :: []) 0 0 0 false =
      if 'a' = '.' ∨ 'a' = 'a' then
        eval_loop 1 [Instruction.Char 'a', Instruction.Match] ('a' :: [])
          1 1 (if 'a' = '\n' then 0 else 0 + 1) false
      else
        some (.ok false)) := by
  have h := c9_char_arm 1 [Instruction.Char 'a', Instruction.Match] ('a' :: []) 0 0 0 'a' rfl
  exact ⟨(c9_char_arm 1 [Instruction.Char 'a', Instruction.Match] ('a' :: []) 0 1 0 'a'
      rfl).1 (by decide),
    h.2 'a' rfl (by decide) (by decide) (by decide)⟩

/-- Splitting the parser's scan over an appended character list: the
scan of `xs ++ ys` first scans `xs`; an early error stands, otherwise
the scan of `ys` continues from the reached context, with the character
index advanced by `xs.length`. -/
theorem scanLoop_append (ys : List Char) : ∀ (xs : List Char) (i : Nat) (ctx : ParseCtx),
    scanLoop (xs ++ ys) i ctx =
      match scanLoop xs i ctx with
      | .ok ctx2 => scanLoop ys (i + xs.length) ctx2
      | .error e => .error e := by
  intro xs
  induction xs with
  | nil => intro i ctx; simp [scanLoop]
  | cons c rest ih =>
    intro i ctx
    obtain ⟨sq, so, st, ss⟩ := ctx
    have harith : (i + 1) + rest.length = i + (c :: rest).length := by
      simp [List.length_cons]; omega
    cases ss
    case Escape =>
      simp only [List.cons_append, scanLoop, List.append_eq]
      cases parse_escape i c with
      | ok a => dsimp only; rw [ih, harith]
      | error e => rfl
    case Char =>
      simp only [List.cons_append, scanLoop, List.append_eq]
      split_ifs
      · cases parse_plus_star_question sq Psq.Plus i with
        | ok seq2 => dsimp only; rw [ih, harith]
        | error e => rfl
      · cases parse_plus_star_question sq Psq.Star i with
        | ok seq2 => dsimp only; rw [ih, harith]
        | error e => rfl
      · cases parse_plus_star_question sq Psq.Question i with
        | ok seq2 => dsimp only; rw [ih, harith]
        | error e => rfl
      · rw [ih, harith]
      · cases st.getLast? with
        | some pr =>
          obtain ⟨prev, prevor⟩ := pr
          dsimp only
          rw [ih, harith]
        | none => rfl
      · cases st.getLast? with
        | some pr =>
          obtain ⟨prev, prevor⟩ := pr
          dsimp only
          rw [ih, harith]
        | none => rfl
      · rfl
      · rw [ih, harith]
      · rw [ih, harith]
      · rw [ih, harith]

/-- C10 (counterexample): the pattern consisting of a single backslash
ends its scan in the pending-escape state, yet parsing does not succeed
— it fails with the empty-pattern error, refuting "is not a parse
error ... parsing succeeds". -/
theorem c10_counterexample :
    scanLoop ('\\' :: []) 0 ⟨[], [], [], ParseState.Char⟩ =
      .ok ⟨[], [], [], ParseState.Escape⟩ ∧
    parse ('\\' :: []) = .error .Empty :=
  ⟨rfl, rfl⟩

/-- C10 (amended): a trailing unpaired backslash is silently discarded
— no invalid-escape (or any other) error is reported for the dangling
escape itself, and `parse (q ++ "\\")` equals `parse q` whenever the
scan of `q` completes in the plain state (equivalently, the scan of
`q ++ "\\"` ends in the pending-escape state); parsing then succeeds or
fails exactly as it does for the truncated pattern, so it can still
fail for other reasons, e.g. `parse "\\"` fails with `Empty`. -/
theorem c10_trailing_backslash_discarded (q : List Char) (ctx : ParseCtx)
    (hscan : scanLoop q 0 ⟨[], [], [], ParseState.Char⟩ = .ok ctx)
    (hstate : ctx.state = ParseState.Char) :
    parse (q ++ ('\\' :: [])) = parse q := by
  obtain ⟨sq, so, st, ss⟩ := ctx
  simp only at hstate
  subst hstate
  rw [parse, parse, scanLoop_append ('\\' :: []) q 0 ⟨[], [], [], ParseState.Char⟩, hscan]
  simp [scanLoop]

/-- Witness for C10's amended theorem: `parse "a\\" = parse "a"`. -/
theorem c10_witness : parse ('a' :: '\\' :: []) = parse ('a' :: []) :=
  c10_trailing_backslash_discarded ('a' :: []) ⟨[Ast.Char 'a'], [], [], ParseState.Char⟩
    rfl rfl

/-- Scanning characters that are none of the parser's seven special
characters only appends literal `Char` nodes to the sequence
accumulator and leaves everything else unchanged. -/
theorem scanLoop_literal : ∀ (s : List Char) (i : Nat) (sq so : List Ast)
    (st : List (List Ast × List Ast)),
    (∀ c ∈ s, c ≠ '+' ∧ c ≠ '*' ∧ c ≠ '?' ∧ c ≠ '(' ∧ c ≠ ')' ∧ c ≠ '|' ∧ c ≠ '\\') →
    scanLoop s i ⟨sq, so, st, ParseState.Char⟩ =
      .ok ⟨sq ++ s.map Ast.Char, so, st, ParseState.Char⟩ := by
  intro s
  induction s with
  | nil => intro i sq so st _; simp [scanLoop]
  | cons c rest ih =>
    intro i sq so st h
    obtain ⟨h1, h2, h3, h4, h5, h6, h7⟩ := h c (List.mem_cons_self c rest)
    simp only [scanLoop, if_neg h1, if_neg h2, if_neg h3, if_neg h4, if_neg h5, if_neg h6,
      if_neg h7]
    rw [ih (i + 1) (sq ++ [Ast.Char c]) so st
      (fun c2 hc2 => h c2 (List.mem_cons_of_mem c hc2))]
    simp

/-- Parsing a non-empty pattern of plain literal characters yields the
sequence of the corresponding literal `Char` nodes. -/
theorem parse_literal (s : List Char) (hne : s ≠ [])
    (h : ∀ c ∈ s, c ≠ '+' ∧ c ≠ '*' ∧ c ≠ '?' ∧ c ≠ '(' ∧ c ≠ ')' ∧ c ≠ '|' ∧ c ≠ '\\') :
    parse s = .ok (Ast.Seq (s.map Ast.Char)) := by
  match s, hne with
  | c :: rest, _ =>
    rw [parse, scanLoop_literal (c :: rest) 0 [] [] [] h]
    rfl

/-- Generating code for a list of literal `Char` nodes emits the
corresponding `Char` instructions and advances the program counter by
their number. -/
theorem gen_seq_chars : ∀ (cs : List Char) (p : Nat) (ins : List Instruction),
    p + cs.length ≤ USIZE_MAX →
    gen_seq ⟨p, ins⟩ (cs.map Ast.Char) =
      .ok ⟨p + cs.length, ins ++ cs.map Instruction.Char⟩ := by
  intro cs
  induction cs with
  | nil => intro p ins _; simp [gen_seq]
  | cons c rest ih =>
    intro p ins hle
    have hp1 : safe_add p 1 = some (p + 1) := by
      have : p + 1 ≤ USIZE_MAX := by simp [List.length_cons] at hle; omega
      simp [safe_add, this]
    simp only [List.map_cons, gen_seq, gen_expr, gen_char, inc_pc, hp1]
    rw [ih (p + 1) (ins ++ [Instruction.Char c]) (by simp [List.length_cons] at hle ⊢; omega)]
    simp [List.length_cons]
    omega

/-- Code generation for a sequence of literal nodes: the program is the
list of `Char` instructions followed by the single `Match`. -/
theorem gen_code_literal (s : List Char) (hlen : s.length + 1 ≤ USIZE_MAX) :
    gen_code (Ast.Seq (s.map Ast.Char)) =
      .ok (s.map Instruction.Char ++ [Instruction.Match]) := by
  have hgs := gen_seq_chars s 0 [] (by omega)
  have hinc : safe_add (0 + s.length) 1 = some (s.length + 1) := by
    simp [safe_add]; omega
  simp only [gen_code, Generator.gen_code, gen_expr, hgs, inc_pc, hinc, List.nil_append]

/-- Single accepted step of the evaluator on a `Char` instruction whose
character equals the input character at the scan offset: the program
counter and scan offset advance, and the position counter becomes `0`
on a pattern newline, `pos + 1` otherwise. -/
theorem eval_loop_char_step (fuel : Nat) (inst : List Instruction) (line : List Char)
    (pc sp pos : Nat) (c : Char)
    (h : inst.get? pc = some (.Char c)) (hsp : line.get? sp = some c)
    (hpc : pc + 1 ≤ USIZE_MAX) (hsp1 : sp + 1 ≤ USIZE_MAX) (hpos : pos + 1 ≤ USIZE_MAX) :
    eval_loop (fuel + 1) inst line pc sp pos false =
      eval_loop fuel inst line (pc + 1) (sp + 1) (if c = '\n' then 0 else pos + 1) false := by
  have hpc2 : safe_add pc 1 = some (pc + 1) := by simp [safe_add, hpc]
  have hsp2 : safe_add sp 1 = some (sp + 1) := by simp [safe_add, hsp1]
  have hpos2 : safe_add pos 1 = some (pos + 1) := by simp [safe_add, hpos]
  simp only [eval_loop, h, hsp, or_true, ite_true, hpc2, hsp2]
  by_cases hn : c = '\n' <;> simp [hn, hpos2]

/-- Running the literal program for `s` against input `s` itself from
matching offsets consumes every remaining character and reaches the
terminal `Match`. -/
theorem eval_loop_selfmatch (s : List Char) (hs : s.length + 1 ≤ USIZE_MAX) :
    ∀ (rest done : List Char) (pos : Nat), s = done ++ rest →
    pos + rest.length ≤ USIZE_MAX →
    eval_loop (rest.length + 1) (s.map Instruction.Char ++ [Instruction.Match]) s
      done.length done.length pos false = some (.ok true) := by
  intro rest
  induction rest with
  | nil =>
    intro done pos hseq hpos
    have hget : (s.map Instruction.Char ++ [Instruction.Match]).get? done.length =
        some Instruction.Match := by
      have hlen2 : (s.map Instruction.Char).length = done.length := by
        simp [hseq]
      rw [List.get?_append_right (by omega), hlen2]
      simp
    simp only [eval_loop, hget]
  | cons c rest' ih =>
    intro done pos hseq hpos
    have hdlt : done.length < s.length := by
      rw [hseq]; simp [List.length_append]
    have hget : (s.map Instruction.Char ++ [Instruction.Match]).get? done.length =
        some (Instruction.Char c) := by
      rw [List.get?_append (by simp [hdlt]), hseq, List.map_append, List.get?_append_right
        (by simp), List.map_cons]
      simp
    have hline : s.get? done.length = some c := by
      rw [hseq, List.get?_append_right (Nat.le_refl _)]
      simp
    have hpc : safe_add done.length 1 = some (done.length + 1) := by
      have : done.length + 1 ≤ USIZE_MAX := by omega
      simp [safe_add, this]
    have hseq2 : s = (done ++ [c]) ++ rest' := by rw [hseq]; simp
    have hdone2 : (done ++ [c]).length = done.length + 1 := by simp
    simp only [List.length_cons] at hpos ⊢
    rw [eval_loop_char_step (rest'.length + 1) _ s done.length done.length pos c hget hline
      (by omega) (by omega) (by omega)]
    by_cases hn : c = '\n'
    · rw [if_pos hn]
      have := ih (done ++ [c]) 0 hseq2 (by omega)
      rw [hdone2] at this
      exact this
    · rw [if_neg hn]
      have := ih (done ++ [c]) (pos + 1) hseq2 (by omega)
      rw [hdone2] at this
      exact this

/-- C7: round-trip — for every non-empty pattern containing none of the
metacharacters `\\ ( ) | + * ?` and none of `^`, `$`, `.`, matching the
pattern against itself depth-first returns `Ok(true)` (with fuel one
step per character plus the final `Match`; the length bound reflects
that a Rust slice length cannot exceed `usize::MAX`). -/
theorem c7_literal_roundtrip (s : List Char) (hne : s ≠ [])
    (hmeta : ∀ c ∈ s, c ∉ ['\\', '(', ')', '|', '+', '*', '?', '^', '$', '.'])
    (hlen : s.length + 1 ≤ USIZE_MAX) :
    do_matching (s.length + 1) s s true = some (.ok true) := by
  have h7 : ∀ c ∈ s, c ≠ '+' ∧ c ≠ '*' ∧ c ≠ '?' ∧ c ≠ '(' ∧ c ≠ ')' ∧ c ≠ '|' ∧ c ≠ '\\' := by
    intro c hc
    have := hmeta c hc
    simp [List.mem_cons] at this
    tauto
  have hp := parse_literal s hne h7
  have hg := gen_code_literal s hlen
  have he := eval_loop_selfmatch s hlen s [] 0 rfl (by omega)
  simp only [do_matching, hp, hg, eval, if_pos rfl, eval_depth, List.length_nil] at he ⊢
  simp [he]

/-- Witness for C7 at the concrete literal pattern `"ab"`. -/
theorem c7_witness : do_matching 3 ('a' :: 'b' :: []) ('a' :: 'b' :: []) true =
    some (.ok true) :=
  c7_literal_roundtrip ('a' :: 'b' :: []) (by decide) (by decide) (by decide)

/-- Value form of a successful overflow-checked addition. -/
theorem safe_add_some {a b x : Nat} (h : safe_add a b = some x) : x = a + b := by
  unfold safe_add at h
  split at h
  · cases h; rfl
  · cases h

/-- Value form of a successful program-counter increment. -/
theorem inc_pc_some {g g2 : Generator} (h : inc_pc g = .ok g2) :
    g2 = ⟨g.pc + 1, g.insts⟩ := by
  unfold inc_pc at h
  cases hsa : safe_add g.pc 1 with
  | none => rw [hsa] at h; cases h
  | some x =>
    rw [hsa] at h
    cases h
    rw [safe_add_some hsa]

/-- Appending one non-`Match` instruction whose targets are bounded by
the (possibly raised) program counter preserves the generator
invariant. -/
theorem GoodGen_append {p p2 : Nat} {L : List Instruction} {ins : Instruction}
    (hg : GoodGen ⟨p, L⟩) (hp : p ≤ p2) (hlen : p2 ≤ L.length + 1)
    (htar : ∀ t ∈ instTargets ins, t ≤ p2) (hnm : ins ≠ Instruction.Match) :
    GoodGen ⟨p2, L ++ [ins]⟩ := by
  obtain ⟨h1, h2, h3⟩ := hg
  refine ⟨by simpa using hlen, ?_, ?_⟩
  · intro x hx t ht
    rcases List.mem_append.mp hx with hx | hx
    · exact le_trans (h2 x hx t ht) hp
    · rw [List.mem_singleton.mp hx] at ht
      exact htar t ht
  · intro hx
    rcases List.mem_append.mp hx with hx | hx
    · exact h3 hx
    · exact hnm (List.mem_singleton.mp hx).symm

/-- Patching one slot with a non-`Match` instruction whose targets are
bounded by the program counter preserves the generator invariant. -/
theorem GoodGen_set {p : Nat} {L : List Instruction} {k : Nat} {ins : Instruction}
    (hg : GoodGen ⟨p, L⟩) (htar : ∀ t ∈ instTargets ins, t ≤ p)
    (hnm : ins ≠ Instruction.Match) :
    GoodGen ⟨p, L.set k ins⟩ := by
  obtain ⟨h1, h2, h3⟩ := hg
  refine ⟨by simpa using h1, ?_, ?_⟩
  · intro x hx t ht
    rcases List.mem_or_eq_of_mem_set hx with hx | hx
    · exact h2 x hx t ht
    · rw [hx] at ht
      exact htar t ht
  · intro hx
    rcases List.mem_or_eq_of_mem_set hx with hx | hx
    · exact h3 hx
    · exact hnm hx.symm

mutual

/-- Every successful `gen_expr` run preserves the generator invariant
and never decreases the program counter. -/
theorem gen_expr_inv (a : Ast) : ∀ (g g2 : Generator), GoodGen g → gen_expr g a = .ok g2 →
    GoodGen g2 ∧ g.pc ≤ g2.pc := by
  cases a with
  | Char c =>
    intro g g2 hg hgen
    simp only [gen_expr, gen_char] at hgen
    obtain rfl := inc_pc_some hgen
    exact ⟨GoodGen_append hg (Nat.le_succ _) (by have := hg.1; dsimp only; omega)
      (by intro t ht; simp [instTargets] at ht) (by simp), Nat.le_succ _⟩
  | Doller =>
    intro g g2 hg hgen
    simp only [gen_expr, gen_doller] at hgen
    cases hgen
    exact ⟨GoodGen_append hg (le_refl _) (by have := hg.1; omega)
      (by intro t ht; simp [instTargets] at ht) (by simp), le_refl _⟩
  | Hat =>
    intro g g2 hg hgen
    simp only [gen_expr, gen_hat] at hgen
    cases hgen
    exact ⟨GoodGen_append hg (le_refl _) (by have := hg.1; omega)
      (by intro t ht; simp [instTargets] at ht) (by simp), le_refl _⟩
  | Seq v =>
    intro g g2 hg hgen
    simp only [gen_expr] at hgen
    exact gen_seq_inv v g g2 hg hgen
  | Plus e =>
    intro g g2 hg hgen
    simp only [gen_expr] at hgen
    cases hx : gen_expr g e with
    | error e2 => rw [hx] at hgen; cases hgen
    | ok g1 =>
      rw [hx] at hgen; dsimp only at hgen
      obtain ⟨hg1, hpc1⟩ := gen_expr_inv e g g1 hg hx
      cases hinc : inc_pc g1 with
      | error e2 => rw [hinc] at hgen; cases hgen
      | ok g3 =>
        rw [hinc] at hgen; dsimp only at hgen
        obtain rfl := inc_pc_some hinc
        cases hgen
        refine ⟨GoodGen_append hg1 (Nat.le_succ _) (by have := hg1.1; dsimp only; omega)
          ?_ (by simp), by dsimp only; omega⟩
        intro t ht
        simp [instTargets] at ht
        rcases ht with rfl | rfl
        · dsimp only; omega
        · exact le_refl _
  | Star e =>
    intro g g2 hg hgen
    simp only [gen_expr] at hgen
    cases hinc : inc_pc g with
    | error e2 => rw [hinc] at hgen; cases hgen
    | ok g1 =>
      rw [hinc] at hgen; dsimp only at hgen
      obtain rfl := inc_pc_some hinc
      have hg2 : GoodGen ⟨g.pc + 1, g.insts ++ [Instruction.Split (g.pc + 1) 0]⟩ :=
        GoodGen_append hg (Nat.le_succ _) (by have := hg.1; omega)
          (by intro t ht; simp [instTargets] at ht; rcases ht with rfl | rfl
              · exact le_refl _
              · exact Nat.zero_le _) (by simp)
      cases hx : gen_expr ⟨g.pc + 1, g.insts ++ [Instruction.Split (g.pc + 1) 0]⟩ e with
      | error e2 => rw [hx] at hgen; cases hgen
      | ok g3 =>
        rw [hx] at hgen; dsimp only at hgen
        obtain ⟨hg3, hpc3⟩ := gen_expr_inv e _ g3 hg2 hx
        have hpc3b : g.pc + 1 ≤ g3.pc := hpc3
        cases hinc2 : inc_pc ⟨g3.pc, g3.insts ++ [Instruction.Jump g.pc]⟩ with
        | error e2 => rw [hinc2] at hgen; cases hgen
        | ok g5 =>
          rw [hinc2] at hgen; dsimp only at hgen
          obtain rfl := inc_pc_some hinc2
          have hg5 : GoodGen ⟨g3.pc + 1, g3.insts ++ [Instruction.Jump g.pc]⟩ :=
            GoodGen_append hg3 (Nat.le_succ _) (by have := hg3.1; omega)
              (by intro t ht; simp [instTargets] at ht; omega) (by simp)
          cases hget : (g3.insts ++ [Instruction.Jump g.pc]).get? g.pc with
          | none => rw [hget] at hgen; dsimp only at hgen; cases hgen
          | some ins =>
            rw [hget] at hgen
            cases ins with
            | Split l1 l2x =>
              dsimp only at hgen
              cases hgen
              have hl1 : l1 ≤ g3.pc + 1 :=
                hg5.2.1 _ (List.get?_mem hget) l1 (by simp [instTargets])
              refine ⟨GoodGen_set hg5 ?_ (by simp), by dsimp; omega⟩
              intro t ht
              simp [instTargets] at ht
              rcases ht with rfl | rfl
              · exact hl1
              · exact le_refl _
            | Char c2 => dsimp only at hgen; cases hgen
            | Match => dsimp only at hgen; cases hgen
            | Jump a2 => dsimp only at hgen; cases hgen
            | MatchBegin => dsimp only at hgen; cases hgen
            | MatchEnd => dsimp only at hgen; cases hgen
  | Question e =>
    intro g g2 hg hgen
    simp only [gen_expr] at hgen
    cases hinc : inc_pc g with
    | error e2 => rw [hinc] at hgen; cases hgen
    | ok g1 =>
      rw [hinc] at hgen; dsimp only at hgen
      obtain rfl := inc_pc_some hinc
      have hg2 : GoodGen ⟨g.pc + 1, g.insts ++ [Instruction.Split (g.pc + 1) 0]⟩ :=
        GoodGen_append hg (Nat.le_succ _) (by have := hg.1; omega)
          (by intro t ht; simp [instTargets] at ht; rcases ht with rfl | rfl
              · exact le_refl _
              · exact Nat.zero_le _) (by simp)
      cases hx : gen_expr ⟨g.pc + 1, g.insts ++ [Instruction.Split (g.pc + 1) 0]⟩ e with
      | error e2 => rw [hx] at hgen; cases hgen
      | ok g3 =>
        rw [hx] at hgen; dsimp only at hgen
        obtain ⟨hg3, hpc3⟩ := gen_expr_inv e _ g3 hg2 hx
        have hpc3b : g.pc + 1 ≤ g3.pc := hpc3
        cases hget : g3.insts.get? g.pc with
        | none => rw [hget] at hgen; dsimp only at hgen; cases hgen
        | some ins =>
          rw [hget] at hgen
          cases ins with
          | Split l1 l2x =>
            dsimp only at hgen
            cases hgen
            have hl1 : l1 ≤ g3.pc :=
              hg3.2.1 _ (List.get?_mem hget) l1 (by simp [instTargets])
            refine ⟨GoodGen_set hg3 ?_ (by simp), by dsimp; omega⟩
            intro t ht
            simp [instTargets] at ht
            rcases ht with rfl | rfl
            · exact hl1
            · exact le_refl _
          | Char c2 => dsimp only at hgen; cases hgen
          | Match => dsimp only at hgen; cases hgen
          | Jump a2 => dsimp only at hgen; cases hgen
          | MatchBegin => dsimp only at hgen; cases hgen
          | MatchEnd => dsimp only at hgen; cases hgen
  | Or e1 e2 =>
    intro g g2 hg hgen
    simp only [gen_expr] at hgen
    cases hinc : inc_pc g with
    | error e => rw [hinc] at hgen; cases hgen
    | ok g1 =>
      rw [hinc] at hgen; dsimp only at hgen
      obtain rfl := inc_pc_some hinc
      have hgA : GoodGen ⟨g.pc + 1, g.insts ++ [Instruction.Split (g.pc + 1) 0]⟩ :=
        GoodGen_append hg (Nat.le_succ _) (by have := hg.1; omega)
          (by intro t ht; simp [instTargets] at ht; rcases ht with rfl | rfl
              · exact le_refl _
              · exact Nat.zero_le _) (by simp)
      cases hx1 : gen_expr ⟨g.pc + 1, g.insts ++ [Instruction.Split (g.pc + 1) 0]⟩ e1 with
      | error e => rw [hx1] at hgen; cases hgen
      | ok g3 =>
        rw [hx1] at hgen; dsimp only at hgen
        obtain ⟨hg3, hpc3⟩ := gen_expr_inv e1 _ g3 hgA hx1
        have hpc3b : g.pc + 1 ≤ g3.pc := hpc3
        cases hinc2 : inc_pc ⟨g3.pc, g3.insts ++ [Instruction.Jump 0]⟩ with
        | error e => rw [hinc2] at hgen; cases hgen
        | ok g5 =>
          rw [hinc2] at hgen; dsimp only at hgen
          obtain rfl := inc_pc_some hinc2
          have hg5 : GoodGen ⟨g3.pc + 1, g3.insts ++ [Instruction.Jump 0]⟩ :=
            GoodGen_append hg3 (Nat.le_succ _) (by have := hg3.1; omega)
              (by intro t ht; simp [instTargets] at ht; omega) (by simp)
          cases hget1 : (g3.insts ++ [Instruction.Jump 0]).get? g.pc with
          | none => rw [hget1] at hgen; dsimp only at hgen; cases hgen
          | some ins =>
            rw [hget1] at hgen
            cases ins with
            | Split l1 l2x =>
              dsimp only at hgen
              have hl1 : l1 ≤ g3.pc + 1 :=
                hg5.2.1 _ (List.get?_mem hget1) l1 (by simp [instTargets])
              have hgB : GoodGen ⟨g3.pc + 1,
                  (g3.insts ++ [Instruction.Jump 0]).set g.pc
                    (Instruction.Split l1 (g3.pc + 1))⟩ :=
                GoodGen_set hg5 (by intro t ht; simp [instTargets] at ht
                                    rcases ht with rfl | rfl
                                    · exact hl1
                                    · exact le_refl _) (by simp)
              cases hx2 : gen_expr ⟨g3.pc + 1,
                  (g3.insts ++ [Instruction.Jump 0]).set g.pc
                    (Instruction.Split l1 (g3.pc + 1))⟩ e2 with
              | error e => rw [hx2] at hgen; cases hgen
              | ok g7 =>
                rw [hx2] at hgen; dsimp only at hgen
                obtain ⟨hg7, hpc7⟩ := gen_expr_inv e2 _ g7 hgB hx2
                have hpc7b : g3.pc + 1 ≤ g7.pc := hpc7
                cases hget2 : g7.insts.get? g3.pc with
                | none => rw [hget2] at hgen; dsimp only at hgen; cases hgen
                | some ins2 =>
                  rw [hget2] at hgen
                  cases ins2 with
                  | Jump l3x =>
                    dsimp only at hgen
                    cases hgen
                    refine ⟨GoodGen_set hg7 ?_ (by simp), by dsimp; omega⟩
                    intro t ht
                    simp [instTargets] at ht
                    omega
                  | Char c2 => dsimp only at hgen; cases hgen
                  | Match => dsimp only at hgen; cases hgen
                  | Split a1 a2 => dsimp only at hgen; cases hgen
                  | MatchBegin => dsimp only at hgen; cases hgen
                  | MatchEnd => dsimp only at hgen; cases hgen
            | Char c2 => dsimp only at hgen; cases hgen
            | Match => dsimp only at hgen; cases hgen
            | Jump a2 => dsimp only at hgen; cases hgen
            | MatchBegin => dsimp only at hgen; cases hgen
            | MatchEnd => dsimp only at hgen; cases hgen

/-- Every successful `gen_seq` run preserves the generator invariant
and never decreases the program counter. -/
theorem gen_seq_inv (l : List Ast) : ∀ (g g2 : Generator), GoodGen g → gen_seq g l = .ok g2 →
    GoodGen g2 ∧ g.pc ≤ g2.pc := by
  cases l with
  | nil =>
    intro g g2 hg hgen
    simp only [gen_seq] at hgen
    cases hgen
    exact ⟨hg, le_refl _⟩
  | cons e rest =>
    intro g g2 hg hgen
    simp only [gen_seq] at hgen
    cases hx : gen_expr g e with
    | error e2 => rw [hx] at hgen; cases hgen
    | ok g1 =>
      rw [hx] at hgen; dsimp only at hgen
      obtain ⟨hg1, hpc1⟩ := gen_expr_inv e g g1 hg hx
      obtain ⟨hg2, hpc2⟩ := gen_seq_inv rest g1 g2 hg1 hgen
      exact ⟨hg2, le_trans hpc1 hpc2⟩

end

/-- Structural soundness of whole-program generation: every branch
target is strictly in bounds, the last instruction is the sole `Match`,
and the program is non-empty. -/
theorem gen_code_good (ast : Ast) (prog : List Instruction) (h : gen_code ast = .ok prog) :
    (∀ ins ∈ prog, ∀ t ∈ instTargets ins, t < prog.length) ∧
    prog.getLast? = some Instruction.Match ∧
    prog.countP (fun ins => decide (ins = Instruction.Match)) = 1 ∧
    0 < prog.length := by
  unfold gen_code Generator.gen_code at h
  cases hx : gen_expr ⟨0, []⟩ ast with
  | error e => rw [hx] at h; cases h
  | ok g1 =>
    rw [hx] at h; dsimp only at h
    have hinit : GoodGen ⟨0, []⟩ :=
      ⟨Nat.zero_le _, fun x hx2 => absurd hx2 (List.not_mem_nil x), List.not_mem_nil _⟩
    obtain ⟨hg1, _⟩ := gen_expr_inv ast ⟨0, []⟩ g1 hinit hx
    cases hinc : inc_pc g1 with
    | error e => rw [hinc] at h; cases h
    | ok g3 =>
      rw [hinc] at h; dsimp only at h
      obtain rfl := inc_pc_some hinc
      cases h
      obtain ⟨h1, h2, h3⟩ := hg1
      refine ⟨?_, ?_, ?_, by simp⟩
      · intro x hx2 t ht
        rcases List.mem_append.mp hx2 with hx2 | hx2
        · have := h2 x hx2 t ht
          simp only [List.concat_eq_append, List.length_append, List.length_singleton]
          omega
        · rw [List.mem_singleton.mp hx2] at ht
          simp [instTargets] at ht
      · simp only [List.getLast?_concat]
      · simp only [List.concat_eq_append]
        rw [List.countP_append]
        have hz : g1.insts.countP (fun ins => decide (ins = Instruction.Match)) = 0 := by
          refine List.countP_eq_zero.mpr ?_
          intro a ha
          simp only [decide_eq_true_eq]
          intro hEq
          exact h3 (hEq ▸ ha)
        simp [hz]

/-- C4: for every AST accepted by the code generator, in the produced
instruction sequence every `Jump` target and both `Split` targets are
strictly in-bounds indices of the sequence, and the sequence ends with
exactly one `Match` instruction, which is its last element. -/
theorem c4_generated_code_invariants (ast : Ast) (prog : List Instruction)
    (h : gen_code ast = .ok prog) :
    (∀ ins ∈ prog, ∀ t ∈ instTargets ins, t < prog.length) ∧
    prog.getLast? = some Instruction.Match ∧
    prog.countP (fun ins => decide (ins = Instruction.Match)) = 1 := by
  obtain ⟨ha, hb, hc, _⟩ := gen_code_good ast prog h
  exact ⟨ha, hb, hc⟩

/-- Witness for C4 on the program generated for the AST of `"a|b"`. -/
theorem c4_witness :
    (∀ ins ∈ [Instruction.Split 1 3, Instruction.Char 'a', Instruction.Jump 4,
        Instruction.Char 'b', Instruction.Match],
      ∀ t ∈ instTargets ins, t < 5) ∧
    [Instruction.Split 1 3, Instruction.Char 'a', Instruction.Jump 4,
      Instruction.Char 'b', Instruction.Match].getLast? = some Instruction.Match ∧
    [Instruction.Split 1 3, Instruction.Char 'a', Instruction.Jump 4,
      Instruction.Char 'b', Instruction.Match].countP
        (fun ins => decide (ins = Instruction.Match)) = 1 :=
  c4_generated_code_invariants
    (.Or (.Seq [.Char 'a']) (.Seq [.Char 'b']))
    [Instruction.Split 1 3, Instruction.Char 'a', Instruction.Jump 4,
      Instruction.Char 'b', Instruction.Match] rfl

/-- Depth-first evaluation on a program whose branch targets are all in
bounds and whose last instruction is `Match` never fetches a missing
address: the invalid-program-counter error is unreachable from any
in-bounds program counter. -/
theorem eval_no_invalid_pc (prog : List Instruction) (line : List Char)
    (hlast : prog.getLast? = some Instruction.Match)
    (htar : ∀ ins ∈ prog, ∀ t ∈ instTargets ins, t < prog.length) :
    ∀ (fuel : Nat), ∀ (pc sp pos : Nat) (flag : Bool), pc < prog.length →
      eval_loop fuel prog line pc sp pos flag ≠ some (.error .InvalidPC) := by
  have hlast2 : prog.get? (prog.length - 1) = some Instruction.Match := by
    rw [← List.getLast?_eq_get?]
    exact hlast
  intro fuel
  induction fuel with
  | zero => intro pc sp pos flag hpc; simp [eval_loop]
  | succ fuel ih =>
    intro pc sp pos flag hpc
    obtain ⟨ins, hins⟩ : ∃ ins, prog.get? pc = some ins := ⟨_, List.get?_eq_get hpc⟩
    have hnext : ins ≠ Instruction.Match → pc + 1 < prog.length := by
      intro hne
      rcases Nat.lt_or_ge (pc + 1) prog.length with h | h
      · exact h
      · exfalso
        have : pc = prog.length - 1 := by omega
        rw [this, hlast2] at hins
        cases hins
        exact hne rfl
    cases ins with
    | Char c =>
      simp only [eval_loop, hins]
      cases line.get? sp with
      | none => simp
      | some sp_c =>
        dsimp only
        split
        · cases hsa : safe_add pc 1 with
          | none => simp
          | some pc2 =>
            obtain rfl := safe_add_some hsa
            cases hsa2 : safe_add sp 1 with
            | none => simp
            | some sp2 =>
              dsimp only
              cases hbb : (if c = '\n' then true else flag) with
              | true =>
                simp only [if_pos rfl]
                exact ih (pc + 1) sp2 0 false (hnext (by simp))
              | false =>
                rw [if_neg (by decide : ¬((false : Bool) = true))]
                cases hsa3 : safe_add pos 1 with
                | none => simp
                | some pos2 =>
                  dsimp only
                  exact ih (pc + 1) sp2 pos2 false (hnext (by simp))
        · simp
    | Match =>
      simp only [eval_loop, hins]
      simp
    | Jump addr =>
      simp only [eval_loop, hins]
      exact ih addr sp pos flag
        (htar _ (List.get?_mem hins) addr (by simp [instTargets]))
    | Split addr1 addr2 =>
      have ht1 : addr1 < prog.length :=
        htar _ (List.get?_mem hins) addr1 (by simp [instTargets])
      have ht2 : addr2 < prog.length :=
        htar _ (List.get?_mem hins) addr2 (by simp [instTargets])
      simp only [eval_loop, hins]
      cases hb1 : eval_loop fuel prog line addr1 sp 0 false with
      | none => simp
      | some r1 =>
        cases r1 with
        | error e =>
          dsimp only
          intro hcon
          apply ih addr1 sp 0 false ht1
          rw [hb1]
          cases hcon
          rfl
        | ok b1 =>
          cases b1 with
          | true => simp
          | false =>
            dsimp only
            cases hb2 : eval_loop fuel prog line addr2 sp 0 false with
            | none => simp
            | some r2 =>
              cases r2 with
              | error e =>
                dsimp only
                intro hcon
                apply ih addr2 sp 0 false ht2
                rw [hb2]
                cases hcon
                rfl
              | ok b2 => simp
    | MatchBegin =>
      simp only [eval_loop, hins]
      split
      · cases hsa : safe_add pc 1 with
        | none => simp
        | some pc2 =>
          obtain rfl := safe_add_some hsa
          exact ih (pc + 1) sp pos flag (hnext (by simp))
      · simp
    | MatchEnd =>
      simp only [eval_loop, hins]
      cases line.get? sp with
      | some c =>
        dsimp only
        split
        · cases hsa : safe_add pc 1 with
          | none => simp
          | some pc2 =>
            obtain rfl := safe_add_some hsa
            exact ih (pc + 1) sp pos flag (hnext (by simp))
        · simp
      | none =>
        dsimp only
        split
        · cases hsa : safe_add pc 1 with
          | none => simp
          | some pc2 =>
            obtain rfl := safe_add_some hsa
            exact ih (pc + 1) sp pos flag (hnext (by simp))
        · simp

/-- C5: for every pattern on which parsing and code generation both
succeed, and every input and fuel, depth-first evaluation of the
generated program never returns the invalid-program-counter error: the
out-of-range program-counter branch is unreachable for generated
programs (it can still exhaust fuel or report an overflow error, but
never `InvalidPC`). -/
theorem c5_no_invalid_pc (expr : List Char) (ast : Ast) (prog : List Instruction)
    (line : List Char) (fuel : Nat)
    (hp : parse expr = .ok ast) (hg : gen_code ast = .ok prog) :
    eval fuel prog line true ≠ some (.error .InvalidPC) := by
  obtain ⟨htar, hlast, _, hlen⟩ := gen_code_good ast prog hg
  have : eval fuel prog line true = eval_loop fuel prog line 0 0 0 false := rfl
  rw [this]
  exact eval_no_invalid_pc prog line hlast htar fuel 0 0 0 false hlen

/-- Witness for C5 on the pattern `"a*"` evaluated against `"aa"`. -/
theorem c5_witness :
    eval 10 [Instruction.Split 1 3, Instruction.Char 'a', Instruction.Jump 0,
      Instruction.Match] ('a' :: 'a' :: []) true ≠ some (.error .InvalidPC) :=
  c5_no_invalid_pc ('a' :: '*' :: []) (.Seq [.Star (.Char 'a')])
    [Instruction.Split 1 3, Instruction.Char 'a', Instruction.Jump 0, Instruction.Match]
    ('a' :: 'a' :: []) 10 rfl rfl

end Regexer
